import Mathlib

/-!
Verification of the chunking / overlap-resolution / reassembly core of
`whisper_transcriber.py` against its design specification.

The script processes each audio file in fixed-length chunks with overlap
(lines 40-126 of the source).  Durations are modelled as natural numbers in
the unit the surrounding statement uses (milliseconds for the slicing code,
seconds for the compile loop, matching the source's own units).  Segment
text is modelled as `String`; the Whisper model itself is external, so the
per-window segment lists are universally quantified inputs.
-/

namespace WhisperTranscriber

/-! ## Windower: chunk boundary computation (source lines 61-76) -/

/-- Number of chunks: `range(0, total, step)` has `⌈total/step⌉` elements
(for `step > 0`). -/
def num_windows (total step : Nat) : Nat := (total + step - 1) / step

/-- `start_points = list(range(0, total_length, chunk_length_ms))`
(source line 65): the values `0, step, 2*step, …` below `total`. -/
def start_points (total step : Nat) : List Nat :=
  (List.range (num_windows total step)).map (· * step)

/-- Start of the audio slice actually read for chunk `idx` whose start
point is `sp` (source lines 69-73): `0` for the first chunk, otherwise
`start_point - overlap_ms`.  In `Nat`, subtraction is already clamped
at `0`. -/
def chunk_start (idx sp ov : Nat) : Nat := if idx = 0 then 0 else sp - ov

/-- Requested end of the audio slice for chunk `idx` (source lines 71/74):
`chunk_length_ms + overlap_ms` for the first chunk, otherwise
`start_point + chunk_length_ms + overlap_ms`. -/
def chunk_end_req (idx sp len ov : Nat) : Nat :=
  if idx = 0 then len + ov else sp + len + ov

/-- Effective end of the slice `audio[start_ms:end_ms]` (source line 76):
`pydub` clamps the requested end to the total length of the audio. -/
def chunk_end (total idx sp len ov : Nat) : Nat :=
  min (chunk_end_req idx sp len ov) total

/-- A window of the audio timeline as described by the spec's data model:
the owned (nominal) range and the actually-read (overlap-padded) range. -/
structure Window where
  index : Nat
  nominal_start : Nat
  nominal_end : Nat
  read_start : Nat
  read_end : Nat
deriving DecidableEq

/-- Default window value used with `List.getD`. -/
def wdefault : Window := ⟨0, 0, 0, 0, 0⟩

/-- Modelled from the spec (§4.1 Windower): the window with ordinal `i`,
with `nominal_end = min(nominal_start + nominal_length, total)`,
`read_start = max(0, nominal_start - overlap)` (`0` for `i = 0`) and
`read_end = min(total, nominal_end + overlap)`.  To be compared with the
source-derived `start_points`/`chunk_start`/`chunk_end`. -/
def windowAt (total len ov i : Nat) : Window :=
  { index := i
    nominal_start := i * len
    nominal_end := min (i * len + len) total
    read_start := if i = 0 then 0 else i * len - ov
    read_end := min total (min (i * len + len) total + ov) }

/-- Modelled from the spec (§4.1 Windower contract `compute_windows`):
the ordered sequence of windows for one audio file. -/
def compute_windows (total len ov : Nat) : List Window :=
  (List.range (num_windows total len)).map (windowAt total len ov)

theorem compute_windows_length (total len ov : Nat) :
    (compute_windows total len ov).length = num_windows total len := by
  simp [compute_windows]

theorem compute_windows_getD (total len ov i : Nat)
    (h : i < num_windows total len) :
    (compute_windows total len ov).getD i wdefault = windowAt total len ov i := by
  have hl : i < (compute_windows total len ov).length := by
    simpa [compute_windows_length] using h
  rw [List.getD_eq_getElem _ _ hl]
  simp [compute_windows]

theorem num_windows_pos (total len : Nat) (htot : 0 < total) (hlen : 0 < len) :
    0 < num_windows total len := by
  have : 1 * len ≤ total + len - 1 := by omega
  exact (Nat.le_div_iff_mul_le hlen).2 this

theorem mul_lt_total_of_lt_num_windows {total len i : Nat} (hlen : 0 < len)
    (h : i < num_windows total len) : i * len < total := by
  by_contra hc
  have h1 : num_windows total len < i + 1 := by
    apply (Nat.div_lt_iff_lt_mul hlen).2
    rw [Nat.succ_mul]
    omega
  omega

theorem total_le_num_windows_mul (total len : Nat) (hlen : 0 < len) :
    total ≤ num_windows total len * len := by
  have hdm := Nat.div_add_mod (total + len - 1) len
  have hmod := Nat.mod_lt (total + len - 1) hlen
  unfold num_windows
  rw [Nat.mul_comm]
  omega

/-- C1: For every `total_duration > 0`, `nominal_length > 0` and
`0 ≤ overlap < nominal_length`, the window computation steps through
nominal start values `0, len, 2*len, …` below the total duration
(the source's `start_points`), with `nominal_end = min(start + len, total)`,
`read_start` and `read_end` exactly as the source's chunk extraction
computes them (overlap applied, clamped by the slice), and on the scenario
`total = 125`, `len = 60`, `overlap = 10` it produces exactly the three
windows `{nominal [0,60), read [0,70)}`, `{nominal [60,120), read [50,125)}`,
`{nominal [120,125), read [110,125)}`. -/
theorem C1_window_computation (total len ov : Nat)
    (htot : 0 < total) (hlen : 0 < len) (hov : ov < len) :
    ((compute_windows total len ov).map Window.nominal_start
        = start_points total len)
    ∧ (∀ w ∈ compute_windows total len ov,
        w.nominal_end = min (w.nominal_start + len) total
        ∧ w.read_start = chunk_start w.index w.nominal_start ov
        ∧ w.read_end = chunk_end total w.index w.nominal_start len ov)
    ∧ compute_windows 125 60 10 =
        [⟨0, 0, 60, 0, 70⟩, ⟨1, 60, 120, 50, 125⟩, ⟨2, 120, 125, 110, 125⟩] := by
  refine ⟨?_, ?_, by decide⟩
  · simp [compute_windows, start_points, windowAt, List.map_map, Function.comp]
  · intro w hw
    simp only [compute_windows, List.mem_map, List.mem_range] at hw
    obtain ⟨i, hi, rfl⟩ := hw
    refine ⟨rfl, rfl, ?_⟩
    simp only [windowAt, chunk_end, chunk_end_req, chunk_start]
    rcases Nat.eq_zero_or_pos i with h0 | h0
    · subst h0; simp; omega
    · have : i ≠ 0 := Nat.pos_iff_ne_zero.1 h0
      simp [this]
      omega

/-- C1 witness: the theorem applied at the concrete scenario input. -/
theorem C1_window_computation_witness :
    (0 < 125 ∧ 0 < 60 ∧ 10 < 60)
    ∧ (((compute_windows 125 60 10).map Window.nominal_start
          = start_points 125 60)
      ∧ (∀ w ∈ compute_windows 125 60 10,
          w.nominal_end = min (w.nominal_start + 60) 125
          ∧ w.read_start = chunk_start w.index w.nominal_start 10
          ∧ w.read_end = chunk_end 125 w.index w.nominal_start 60 10)
      ∧ compute_windows 125 60 10 =
          [⟨0, 0, 60, 0, 70⟩, ⟨1, 60, 120, 50, 125⟩, ⟨2, 120, 125, 110, 125⟩]) :=
  ⟨by decide, C1_window_computation 125 60 10 (by decide) (by decide) (by decide)⟩

/-- C2: For every positive total duration (and positive nominal length),
the windows' nominal ranges exactly tile `[0, total)`: the first nominal
start is `0`, each window's nominal end is the next window's nominal start,
the last window's nominal end is the total duration, and every instant
`t < total` lies in exactly one window's nominal range. -/
theorem C2_tiling (total len ov : Nat) (htot : 0 < total) (hlen : 0 < len) :
    (compute_windows total len ov ≠ [])
    ∧ ((compute_windows total len ov).getD 0 wdefault).nominal_start = 0
    ∧ (∀ i, i + 1 < (compute_windows total len ov).length →
        ((compute_windows total len ov).getD i wdefault).nominal_end
          = ((compute_windows total len ov).getD (i + 1) wdefault).nominal_start)
    ∧ ((compute_windows total len ov).getD
          ((compute_windows total len ov).length - 1) wdefault).nominal_end
        = total
    ∧ (∀ t, t < total → ∃! w, w ∈ compute_windows total len ov
        ∧ w.nominal_start ≤ t ∧ t < w.nominal_end) := by
  have hnw := num_windows_pos total len htot hlen
  have htotle := total_le_num_windows_mul total len hlen
  refine ⟨?_, ?_, ?_, ?_, ?_⟩
  · have : 0 < (compute_windows total len ov).length := by
      simpa [compute_windows_length] using hnw
    exact List.length_pos.1 this
  · rw [compute_windows_getD total len ov 0 hnw]
    simp [windowAt]
  · intro i hi
    rw [compute_windows_length] at hi
    rw [compute_windows_getD total len ov i (by omega),
        compute_windows_getD total len ov (i + 1) hi]
    have hlt : (i + 1) * len < total :=
      mul_lt_total_of_lt_num_windows hlen hi
    simp only [windowAt]
    rw [Nat.succ_mul] at hlt ⊢
    omega
  · rw [compute_windows_length]
    rw [compute_windows_getD total len ov (num_windows total len - 1) (by omega)]
    simp only [windowAt]
    have : (num_windows total len - 1) * len + len = num_windows total len * len := by
      have h1 : num_windows total len - 1 + 1 = num_windows total len := by omega
      calc (num_windows total len - 1) * len + len
          = (num_windows total len - 1 + 1) * len := by rw [Nat.succ_mul]
        _ = num_windows total len * len := by rw [h1]
    rw [this]
    omega
  · intro t ht
    have hq : t / len < num_windows total len := by
      apply (Nat.div_lt_iff_lt_mul hlen).2
      omega
    have hqlb : t / len * len ≤ t := Nat.div_mul_le_self t len
    have hqub : t < (t / len + 1) * len :=
      (Nat.div_lt_iff_lt_mul hlen).1 (Nat.lt_succ_self _)
    refine ⟨windowAt total len ov (t / len), ⟨?_, ?_, ?_⟩, ?_⟩
    · simp only [compute_windows, List.mem_map, List.mem_range]
      exact ⟨t / len, hq, rfl⟩
    · simpa [windowAt] using hqlb
    · simp only [windowAt]
      rw [Nat.succ_mul] at hqub
      omega
    · rintro w ⟨hw, hlb, hub⟩
      simp only [compute_windows, List.mem_map, List.mem_range] at hw
      obtain ⟨j, hj, rfl⟩ := hw
      simp only [windowAt] at hlb hub
      have hjub : t < (j + 1) * len := by
        rw [Nat.succ_mul]
        omega
      have : t / len = j := Nat.div_eq_of_lt_le hlb hjub
      rw [this]

/-- C2 witness: the theorem applied at the concrete scenario input. -/
theorem C2_tiling_witness :
    (0 < 125 ∧ 0 < 60)
    ∧ ((compute_windows 125 60 10 ≠ [])
      ∧ ((compute_windows 125 60 10).getD 0 wdefault).nominal_start = 0
      ∧ (∀ i, i + 1 < (compute_windows 125 60 10).length →
          ((compute_windows 125 60 10).getD i wdefault).nominal_end
            = ((compute_windows 125 60 10).getD (i + 1) wdefault).nominal_start)
      ∧ ((compute_windows 125 60 10).getD
            ((compute_windows 125 60 10).length - 1) wdefault).nominal_end
          = 125
      ∧ (∀ t, t < 125 → ∃! w, w ∈ compute_windows 125 60 10
          ∧ w.nominal_start ≤ t ∧ t < w.nominal_end)) :=
  ⟨by decide, C2_tiling 125 60 10 (by decide) (by decide)⟩

/-! ## Segment collection (source lines 94-106) -/

/-- Python's `str.strip()` (source line 97): the text with leading and
trailing whitespace removed.  (Lean's own `String.trim` is byte-position
based; this char-list version is used so that concrete instances can be
evaluated by the kernel.) -/
def strip (s : String) : String :=
  String.mk (((s.data.dropWhile Char.isWhitespace).reverse.dropWhile
    Char.isWhitespace).reverse)

/-- `start_sec = int(segment["start"]) + start_ms // 1000` (source line 96).
The model-reported window-local start is modelled in milliseconds, so the
float truncation `int(segment["start"])` is `localMs / 1000`. -/
def start_sec (startMs localMs : Nat) : Nat := localMs / 1000 + startMs / 1000

/-! ## Python tuple comparison and `sorted` (source line 114) -/

/-- Lexicographic strict comparison of char lists by code point — how
Python compares the `text` components of `(sec, text)` tuples. -/
def strLtb : List Char → List Char → Bool
  | [], [] => false
  | [], _ :: _ => true
  | _ :: _, [] => false
  | a :: as, b :: bs =>
    if a.toNat < b.toNat then true
    else if b.toNat < a.toNat then false
    else strLtb as bs

/-- Python's `(sec, text) < (sec', text')` tuple comparison, the order used
by `sorted(segments)` (source line 114). -/
def pyLtB (a b : Nat × String) : Bool :=
  if a.1 < b.1 then true
  else if b.1 < a.1 then false
  else strLtb a.2.data b.2.data

/-- `a` may be placed before `b` by Python's sort: `¬(b < a)`. -/
def pyLeB (a b : Nat × String) : Bool := !(pyLtB b a)

theorem strLtb_asymm : ∀ x y : List Char, strLtb x y = true → strLtb y x = false
  | [], [] => by simp [strLtb]
  | [], _ :: _ => by simp [strLtb]
  | _ :: _, [] => by simp [strLtb]
  | a :: as, b :: bs => by
    simp only [strLtb]
    rcases Nat.lt_trichotomy a.toNat b.toNat with h | h | h
    · intro _
      simp [h, Nat.lt_asymm h, Nat.not_lt.2 (Nat.le_of_lt h)]
    · simp [h, Nat.lt_irrefl]
      exact strLtb_asymm as bs
    · simp [h, Nat.lt_asymm h, Nat.not_lt.2 (Nat.le_of_lt h)]

theorem strLtb_connex : ∀ z x y : List Char,
    strLtb z x = true → strLtb z y = true ∨ strLtb y x = true
  | [], [], _ => by simp [strLtb]
  | [], _ :: _, [] => by simp [strLtb]
  | [], _ :: _, _ :: _ => by simp [strLtb]
  | _ :: _, [], _ => by simp [strLtb]
  | c :: zs, a :: as, [] => by simp [strLtb]
  | c :: zs, a :: as, b :: bs => by
    simp only [strLtb]
    intro h
    rcases Nat.lt_trichotomy c.toNat b.toNat with hcb | hcb | hcb
    · left; simp [hcb]
    · rcases Nat.lt_trichotomy c.toNat a.toNat with hca | hca | hca
      · right
        have hba : b.toNat < a.toNat := by omega
        simp [hba]
      · have h' : strLtb zs as = true := by
          simpa [hca, Nat.lt_irrefl] using h
        rcases strLtb_connex zs as bs h' with h2 | h2
        · left; simp [hcb, Nat.lt_irrefl, h2]
        · right
          have hba : ¬ b.toNat < a.toNat := by omega
          have hab : ¬ a.toNat < b.toNat := by omega
          simp [hba, hab, h2]
      · simp only [Nat.lt_asymm hca, if_false, if_pos hca] at h
        exact Bool.noConfusion h
    · rcases Nat.lt_trichotomy c.toNat a.toNat with hca | hca | hca
      · right
        have hba : b.toNat < a.toNat := by omega
        simp [hba]
      · right
        have hba : b.toNat < a.toNat := by omega
        simp [hba]
      · simp only [Nat.lt_asymm hca, if_false, if_pos hca] at h
        exact Bool.noConfusion h

theorem pyLtB_asymm {a b : Nat × String} (h : pyLtB a b = true) :
    pyLtB b a = false := by
  unfold pyLtB at h ⊢
  rcases Nat.lt_trichotomy a.1 b.1 with h1 | h1 | h1
  · rw [if_neg (by omega), if_pos h1]
  · rw [if_neg (by omega), if_neg (by omega)] at h
    rw [if_neg (by omega), if_neg (by omega)]
    exact strLtb_asymm _ _ h
  · rw [if_neg (by omega), if_pos h1] at h
    exact Bool.noConfusion h

theorem pyLtB_connex {z x : Nat × String} (y : Nat × String)
    (h : pyLtB z x = true) : pyLtB z y = true ∨ pyLtB y x = true := by
  unfold pyLtB at h ⊢
  rcases Nat.lt_trichotomy z.1 y.1 with hzy | hzy | hzy
  · left; simp [hzy]
  · rcases Nat.lt_trichotomy z.1 x.1 with hzx | hzx | hzx
    · right
      have hyx : y.1 < x.1 := by omega
      simp [hyx]
    · have h' : strLtb z.2.data x.2.data = true := by
        have h2 : ¬ z.1 < x.1 := by omega
        have h3 : ¬ x.1 < z.1 := by omega
        simpa [h2, h3] using h
      rcases strLtb_connex z.2.data x.2.data y.2.data h' with h2 | h2
      · left
        have h4 : ¬ z.1 < y.1 := by omega
        have h5 : ¬ y.1 < z.1 := by omega
        simp [h4, h5, h2]
      · right
        have h4 : ¬ y.1 < x.1 := by omega
        have h5 : ¬ x.1 < y.1 := by omega
        simp [h4, h5, h2]
    · have h2 : ¬ z.1 < x.1 := by omega
      have h3 : x.1 < z.1 := by omega
      simp [h2, h3] at h
  · rcases Nat.lt_trichotomy z.1 x.1 with hzx | hzx | hzx
    · right
      have hyx : y.1 < x.1 := by omega
      simp [hyx]
    · right
      have hyx : y.1 < x.1 := by omega
      simp [hyx]
    · have h2 : ¬ z.1 < x.1 := by omega
      simp [h2, hzx] at h

theorem pyLeB_total (a b : Nat × String) :
    pyLeB a b = true ∨ pyLeB b a = true := by
  unfold pyLeB
  cases hba : pyLtB b a
  · left; simp
  · right
    simp [pyLtB_asymm hba]

theorem pyLeB_trans {a b c : Nat × String}
    (h1 : pyLeB a b = true) (h2 : pyLeB b c = true) : pyLeB a c = true := by
  unfold pyLeB at h1 h2 ⊢
  simp only [Bool.not_eq_true'] at h1 h2 ⊢
  by_contra hc
  have hca : pyLtB c a = true := by
    cases h : pyLtB c a
    · exact absurd h hc
    · rfl
  rcases pyLtB_connex b hca with h3 | h3
  · rw [h3] at h2; exact Bool.noConfusion h2
  · rw [h3] at h1; exact Bool.noConfusion h1

theorem pyLeB_fst_le {a b : Nat × String} (h : pyLeB a b = true) : a.1 ≤ b.1 := by
  unfold pyLeB pyLtB at h
  by_contra hc
  have : b.1 < a.1 := by omega
  simp [this] at h

/-- Insert into a sorted list, before the first element it may precede.
Together with `sortSegments` this is a stable sort computing exactly
Python's `sorted(segments)` on `(sec, text)` tuples. -/
def orderedInsertB (a : Nat × String) :
    List (Nat × String) → List (Nat × String)
  | [] => [a]
  | b :: l => if pyLeB a b then a :: b :: l else b :: orderedInsertB a l

/-- `sorted(segments)` (source line 114): Python's sort of the `(sec, text)`
tuples in lexicographic tuple order. -/
def sortSegments : List (Nat × String) → List (Nat × String)
  | [] => []
  | a :: l => orderedInsertB a (sortSegments l)

theorem mem_orderedInsertB {x a : Nat × String} :
    ∀ {l : List (Nat × String)}, x ∈ orderedInsertB a l ↔ x = a ∨ x ∈ l := by
  intro l
  induction l with
  | nil => simp [orderedInsertB]
  | cons b l ih =>
    simp only [orderedInsertB]
    by_cases h : pyLeB a b = true
    · simp [h]
    · simp only [if_neg h, List.mem_cons, ih]
      tauto

theorem mem_sortSegments {x : Nat × String} :
    ∀ {l : List (Nat × String)}, x ∈ sortSegments l ↔ x ∈ l := by
  intro l
  induction l with
  | nil => simp [sortSegments]
  | cons b l ih =>
    simp only [sortSegments, mem_orderedInsertB, List.mem_cons, ih]

theorem orderedInsertB_pairwise (a : Nat × String)
    {l : List (Nat × String)}
    (hl : l.Pairwise (fun x y => pyLeB x y = true)) :
    (orderedInsertB a l).Pairwise (fun x y => pyLeB x y = true) := by
  induction l with
  | nil => simp [orderedInsertB]
  | cons b l ih =>
    rw [List.pairwise_cons] at hl
    simp only [orderedInsertB]
    by_cases h : pyLeB a b = true
    · rw [if_pos h]
      refine List.Pairwise.cons ?_ (List.Pairwise.cons hl.1 hl.2)
      intro y hy
      rcases List.mem_cons.1 hy with rfl | hy
      · exact h
      · exact pyLeB_trans h (hl.1 y hy)
    · rw [if_neg h]
      refine List.Pairwise.cons ?_ (ih hl.2)
      intro y hy
      rcases mem_orderedInsertB.1 hy with rfl | hy
      · rcases pyLeB_total y b with h2 | h2
        · exact absurd h2 h
        · exact h2
      · exact hl.1 y hy

theorem sortSegments_pairwise (l : List (Nat × String)) :
    (sortSegments l).Pairwise (fun x y => pyLeB x y = true) := by
  induction l with
  | nil => simp [sortSegments]
  | cons b l ih => exact orderedInsertB_pairwise b ih

/-! ## Reconciler: the compile loop (source lines 108-124) -/

/-- The ownership filter of the compile loop (source lines 118-121): a
segment with global start `sec` (in whole seconds) collected from chunk
`idx` survives iff it is discarded neither by
`if sec < idx * chunk_duration_sec: continue` nor by
`if sec >= (idx + 1) * chunk_duration_sec: continue`. -/
def accepts (lenSec idx sec : Nat) : Bool :=
  if sec < idx * lenSec then false
  else if (idx + 1) * lenSec ≤ sec then false
  else true

theorem accepts_iff (lenSec idx sec : Nat) :
    accepts lenSec idx sec = true ↔
      idx * lenSec ≤ sec ∧ sec < (idx + 1) * lenSec := by
  unfold accepts
  rcases Nat.lt_or_ge sec (idx * lenSec) with h | h
  · simp only [if_pos h]
    constructor
    · intro hx; exact Bool.noConfusion hx
    · intro hx; omega
  · rcases Nat.lt_or_ge sec ((idx + 1) * lenSec) with h2 | h2
    · simp only [if_neg (Nat.not_lt.2 h), if_neg (Nat.not_le.2 h2)]
      simp only [true_iff]
      exact ⟨h, h2⟩
    · simp only [if_neg (Nat.not_lt.2 h), if_pos h2]
      constructor
      · intro hx; exact Bool.noConfusion hx
      · intro hx; omega

/-- The body of the compile loop (source lines 113-124) over the flattened
candidate stream: for each candidate `(idx, sec, text)`, skip it if its
`(sec, text)` key was already written (`unique_entries`, modelled as the
list `seen`), skip it if the ownership filter discards it, and otherwise
record and emit it. -/
def compileLoop (lenSec : Nat) :
    List (Nat × Nat × String) → List (Nat × String) → List (Nat × String)
  | [], _ => []
  | c :: rest, seen =>
    if c.2 ∈ seen then compileLoop lenSec rest seen
    else if accepts lenSec c.1 c.2.1 then
      c.2 :: compileLoop lenSec rest (c.2 :: seen)
    else compileLoop lenSec rest seen

/-- The flattened candidate stream of the compile loop: the `all_segments`
entries in insertion (= chunk index) order, each window's segment list
pre-sorted by `sorted(segments)` (source lines 113-114) and tagged with
its chunk index. -/
def candidates (pool : List (Nat × List (Nat × String))) :
    List (Nat × Nat × String) :=
  pool.flatMap fun e => (sortSegments e.2).map fun p => (e.1, p)

/-- The compiled transcript for one audio file (source lines 108-124):
`(sec, text)` dedup and ownership filtering over the per-chunk sorted
segment lists. -/
def compile (lenSec : Nat) (pool : List (Nat × List (Nat × String))) :
    List (Nat × String) :=
  compileLoop lenSec (candidates pool) []

theorem mem_compileLoop {lenSec : Nat} :
    ∀ {cands : List (Nat × Nat × String)} {seen : List (Nat × String)}
      {x : Nat × String}, x ∈ compileLoop lenSec cands seen →
      ∃ i, (i, x) ∈ cands ∧ accepts lenSec i x.1 = true := by
  intro cands
  induction cands with
  | nil => intro seen x hx; exact absurd hx (by simp [compileLoop])
  | cons c rest ih =>
    intro seen x hx
    simp only [compileLoop] at hx
    by_cases hseen : c.2 ∈ seen
    · rw [if_pos hseen] at hx
      obtain ⟨i, hi, hacc⟩ := ih hx
      exact ⟨i, List.mem_cons_of_mem _ hi, hacc⟩
    · rw [if_neg hseen] at hx
      by_cases hacc : accepts lenSec c.1 c.2.1 = true
      · rw [if_pos hacc] at hx
        rcases List.mem_cons.1 hx with rfl | hx
        · exact ⟨c.1, by simp, hacc⟩
        · obtain ⟨i, hi, hacc2⟩ := ih hx
          exact ⟨i, List.mem_cons_of_mem _ hi, hacc2⟩
      · rw [if_neg hacc] at hx
        obtain ⟨i, hi, hacc2⟩ := ih hx
        exact ⟨i, List.mem_cons_of_mem _ hi, hacc2⟩

theorem compileLoop_not_mem_seen {lenSec : Nat} :
    ∀ {cands : List (Nat × Nat × String)} {seen : List (Nat × String)}
      {x : Nat × String}, x ∈ compileLoop lenSec cands seen → x ∉ seen := by
  intro cands
  induction cands with
  | nil => intro seen x hx; exact absurd hx (by simp [compileLoop])
  | cons c rest ih =>
    intro seen x hx
    simp only [compileLoop] at hx
    by_cases hseen : c.2 ∈ seen
    · rw [if_pos hseen] at hx
      exact ih hx
    · rw [if_neg hseen] at hx
      by_cases hacc : accepts lenSec c.1 c.2.1 = true
      · rw [if_pos hacc] at hx
        rcases List.mem_cons.1 hx with rfl | hx
        · exact hseen
        · intro hmem
          exact ih hx (List.mem_cons_of_mem _ hmem)
      · rw [if_neg hacc] at hx
        exact ih hx

theorem compileLoop_nodup {lenSec : Nat} :
    ∀ {cands : List (Nat × Nat × String)} {seen : List (Nat × String)},
      (compileLoop lenSec cands seen).Nodup := by
  intro cands
  induction cands with
  | nil => intro seen; simp [compileLoop]
  | cons c rest ih =>
    intro seen
    simp only [compileLoop]
    by_cases hseen : c.2 ∈ seen
    · rw [if_pos hseen]; exact ih
    · rw [if_neg hseen]
      by_cases hacc : accepts lenSec c.1 c.2.1 = true
      · rw [if_pos hacc]
        refine List.Nodup.cons ?_ ih
        intro hmem
        exact compileLoop_not_mem_seen hmem (by simp)
      · rw [if_neg hacc]; exact ih

theorem compileLoop_pairwise {lenSec : Nat}
    (R : (Nat × String) → (Nat × String) → Prop) :
    ∀ {cands : List (Nat × Nat × String)} {seen : List (Nat × String)},
      cands.Pairwise (fun a b => accepts lenSec a.1 a.2.1 = true →
        accepts lenSec b.1 b.2.1 = true → R a.2 b.2) →
      (compileLoop lenSec cands seen).Pairwise R := by
  intro cands
  induction cands with
  | nil => intro seen _; simp [compileLoop]
  | cons c rest ih =>
    intro seen hp
    rw [List.pairwise_cons] at hp
    simp only [compileLoop]
    by_cases hseen : c.2 ∈ seen
    · rw [if_pos hseen]; exact ih hp.2
    · rw [if_neg hseen]
      by_cases hacc : accepts lenSec c.1 c.2.1 = true
      · rw [if_pos hacc]
        refine List.Pairwise.cons ?_ (ih hp.2)
        intro y hy
        obtain ⟨i, hi, hacc2⟩ := mem_compileLoop hy
        exact hp.1 (i, y) hi hacc hacc2
      · rw [if_neg hacc]; exact ih hp.2

theorem compileLoop_all_accepted {lenSec : Nat} :
    ∀ {cands : List (Nat × Nat × String)} {seen : List (Nat × String)},
      (∀ c ∈ cands, accepts lenSec c.1 c.2.1 = true) →
      (∀ c ∈ cands, c.2 ∉ seen) →
      (cands.map fun c => c.2).Nodup →
      compileLoop lenSec cands seen = cands.map fun c => c.2 := by
  intro cands
  induction cands with
  | nil => intro seen _ _ _; simp [compileLoop]
  | cons c rest ih =>
    intro seen hacc hseen hnd
    simp only [compileLoop]
    rw [if_neg (hseen c (by simp)), if_pos (hacc c (by simp))]
    simp only [List.map_cons, List.cons.injEq, true_and]
    simp only [List.map_cons, List.nodup_cons] at hnd
    apply ih
    · intro d hd; exact hacc d (List.mem_cons_of_mem _ hd)
    · intro d hd
      simp only [List.mem_cons]
      push_neg
      constructor
      · intro hdc
        exact hnd.1 (hdc ▸ List.mem_map_of_mem (fun c => c.2) hd)
      · exact hseen d (List.mem_cons_of_mem _ hd)
    · exact hnd.2

theorem candidates_mem_fst {pool : List (Nat × List (Nat × String))}
    {b : Nat × Nat × String} (hb : b ∈ candidates pool) :
    ∃ e ∈ pool, b.1 = e.1 := by
  simp only [candidates, List.mem_flatMap, List.mem_map] at hb
  obtain ⟨e, he, p, _, rfl⟩ := hb
  exact ⟨e, he, rfl⟩

theorem candidates_sec_pairwise (lenSec : Nat)
    {pool : List (Nat × List (Nat × String))}
    (hpool : pool.Pairwise (fun e f => e.1 < f.1)) :
    (candidates pool).Pairwise (fun a b => accepts lenSec a.1 a.2.1 = true →
      accepts lenSec b.1 b.2.1 = true → a.2.1 ≤ b.2.1) := by
  induction pool with
  | nil => simp [candidates]
  | cons e ps ih =>
    rw [List.pairwise_cons] at hpool
    have hstep : candidates (e :: ps)
        = ((sortSegments e.2).map fun p => (e.1, p)) ++ candidates ps := by
      simp [candidates]
    rw [hstep, List.pairwise_append]
    refine ⟨?_, ih hpool.2, ?_⟩
    · rw [List.pairwise_map]
      refine (sortSegments_pairwise e.2).imp ?_
      intro p q hpq _ _
      exact pyLeB_fst_le hpq
    · intro a ha b hb hacca haccb
      obtain ⟨p, _, rfl⟩ := List.mem_map.1 ha
      obtain ⟨f, hf, hbf⟩ := candidates_mem_fst hb
      have hef : e.1 < f.1 := hpool.1 f hf
      rw [accepts_iff] at hacca haccb
      have h1 : (e.1 + 1) * lenSec ≤ f.1 * lenSec := by
        apply Nat.mul_le_mul_right
        omega
      have h2 : (e.1, p).2.1 < b.1 * lenSec := by
        rw [← hbf] at h1
        exact Nat.lt_of_lt_of_le hacca.2 h1
      exact Nat.le_of_lt (Nat.lt_of_lt_of_le h2 haccb.1)

theorem candidates_singletons (lenSec : Nat) (l : List (Nat × String)) :
    candidates (l.map fun p => (p.1 / lenSec, [p]))
      = l.map fun p => (p.1 / lenSec, p) := by
  induction l with
  | nil => simp [candidates]
  | cons a l ih =>
    simp only [List.map_cons, candidates, List.flatMap_cons] at ih ⊢
    rw [ih]
    simp [sortSegments, orderedInsertB]

/-! ## Per-window and per-file failure handling (source lines 85-89, 46-60) -/

/-- The `all_segments` dict built by the per-chunk loop: a chunk whose
transcription raised (`except ... continue`, source lines 85-89) — or which
yielded no segments — gets no entry; a successful chunk `idx` contributes
`(idx, its collected segments)`. -/
def build_pool (results : List (Nat × Option (List (Nat × String)))) :
    List (Nat × List (Nat × String)) :=
  results.filterMap fun r => match r.2 with
    | none => none
    | some segs => if segs.isEmpty then none else some (r.1, segs)

/-- The per-file batch loop (source lines 46-126): each file either fails
to decode (`AudioSegment.from_file` raises — there is no `try` around it,
so the exception propagates and ends the batch) or yields a segment pool
that is compiled.  Returns the transcripts produced before any abort,
paired with the uncaught decode error, if one occurred. -/
def run_batch (lenSec : Nat) :
    List (Except String (List (Nat × List (Nat × String)))) →
      List (List (Nat × String)) × Option String
  | [] => ([], none)
  | (Except.error e) :: _ => ([], some e)
  | (Except.ok pool) :: fs =>
      ((compile lenSec pool) :: (run_batch lenSec fs).1, (run_batch lenSec fs).2)

/-- Modelled from the spec (§7 error handling, absent from the source):
"`DecodeError` (AudioSource cannot read/convert a file — skip that file,
continue batch)": every decodable file is compiled, undecodable files are
skipped, and no transcripts are lost. -/
def claim_run_batch (lenSec : Nat)
    (files : List (Except String (List (Nat × List (Nat × String))))) :
    List (List (Nat × String)) :=
  files.filterMap fun f => f.toOption.map (compile lenSec)

/-- Modelled from claim C3's wording: window number `idx` accepts a global
start `sec` iff `nominal_start ≤ sec < nominal_end`, with the last window
unconstrained at or above the total duration (the below-`0` exception for
the first window is vacuous over `Nat`). -/
def claimAcceptsC3 (total len ov idx sec : Nat) : Prop :=
  idx < (compute_windows total len ov).length
  ∧ ((compute_windows total len ov).getD idx wdefault).nominal_start ≤ sec
  ∧ (sec < ((compute_windows total len ov).getD idx wdefault).nominal_end
      ∨ idx + 1 = (compute_windows total len ov).length)

instance (total len ov idx sec : Nat) :
    Decidable (claimAcceptsC3 total len ov idx sec) := by
  unfold claimAcceptsC3
  infer_instance

/-- C3 counterexample: the claim's acceptance rule differs from the code's
ownership filter.  In the `total = 125 s`, `len = 60 s`, `overlap = 10 s`
scenario, a candidate with global start `180 s` attributed to the last
window (index 2) is accepted by the claim (last window unconstrained at or
above the total duration) but discarded by the compile loop, whose upper
bound for the last window is `(idx + 1) * chunk_duration_sec = 180`, not
infinity. -/
theorem C3_counterexample :
    accepts 60 2 180 = false
    ∧ claimAcceptsC3 125 60 10 2 180
    ∧ compile 60 [(2, [(180, "x")])] = [] := by decide

/-- C3 amended: a segment from window `idx` passes the compile loop's
ownership filter iff `nominal_start ≤ sec < nominal_start + nominal_length`;
for every non-last window that upper bound equals `nominal_end`, so the
claim is exact except on the last window, whose upper bound is
`(last_index + 1) * nominal_length` rather than being absent. -/
theorem C3_ownership_amended (total len ov idx sec : Nat) (hlen : 0 < len)
    (hidx : idx < (compute_windows total len ov).length) :
    (accepts len idx sec = true
      ↔ ((compute_windows total len ov).getD idx wdefault).nominal_start ≤ sec
        ∧ sec < ((compute_windows total len ov).getD idx wdefault).nominal_start
            + len)
    ∧ (idx + 1 < (compute_windows total len ov).length →
        (accepts len idx sec = true
          ↔ ((compute_windows total len ov).getD idx wdefault).nominal_start ≤ sec
            ∧ sec < ((compute_windows total len ov).getD idx wdefault).nominal_end)) := by
  rw [compute_windows_length] at hidx
  rw [compute_windows_getD total len ov idx hidx]
  constructor
  · rw [accepts_iff]
    simp only [windowAt]
    rw [Nat.succ_mul]
  · intro hnext
    rw [compute_windows_length] at hnext
    rw [accepts_iff]
    simp only [windowAt]
    have hlt : (idx + 1) * len < total := mul_lt_total_of_lt_num_windows hlen hnext
    have hmin : min (idx * len + len) total = idx * len + len := by
      rw [Nat.succ_mul] at hlt
      omega
    rw [hmin, Nat.succ_mul]

/-- C3 amended witness: the amended theorem applied at a concrete input. -/
theorem C3_ownership_amended_witness :
    (0 < 60 ∧ 1 < (compute_windows 125 60 10).length)
    ∧ ((accepts 60 1 70 = true
        ↔ ((compute_windows 125 60 10).getD 1 wdefault).nominal_start ≤ 70
          ∧ 70 < ((compute_windows 125 60 10).getD 1 wdefault).nominal_start + 60)
      ∧ (1 + 1 < (compute_windows 125 60 10).length →
          (accepts 60 1 70 = true
            ↔ ((compute_windows 125 60 10).getD 1 wdefault).nominal_start ≤ 70
              ∧ 70 < ((compute_windows 125 60 10).getD 1 wdefault).nominal_end))) :=
  ⟨by decide, C3_ownership_amended 125 60 10 1 70 (by decide) (by decide)⟩

/-- C4: whenever the pool lists the chunks in increasing index order (as
the per-chunk loop builds `all_segments`), the compiled transcript is
non-decreasing in start time and contains no repeated `(start, text)` pair;
and in the scenario where two windows each report `(60, "hello")` (one via
overlap, one natively), exactly one entry `(60, "hello")` is compiled. -/
theorem C4_sorted_and_deduped (lenSec : Nat)
    (pool : List (Nat × List (Nat × String)))
    (hpool : pool.Pairwise (fun e f => e.1 < f.1)) :
    (compile lenSec pool).Pairwise (fun a b => a.1 ≤ b.1)
    ∧ (compile lenSec pool).Nodup
    ∧ compile 60 [(0, [(60, "hello")]), (1, [(60, "hello")])] = [(60, "hello")] := by
  refine ⟨?_, compileLoop_nodup, by decide⟩
  exact compileLoop_pairwise _ (candidates_sec_pairwise lenSec hpool)

/-- C4 witness: the theorem applied at the two-window `(60, "hello")`
scenario pool. -/
theorem C4_sorted_and_deduped_witness :
    ([(0, [(60, "hello")]), (1, [(60, "hello")])] :
        List (Nat × List (Nat × String))).Pairwise (fun e f => e.1 < f.1)
    ∧ ((compile 60 [(0, [(60, "hello")]), (1, [(60, "hello")])]).Pairwise
        (fun a b => a.1 ≤ b.1)
      ∧ (compile 60 [(0, [(60, "hello")]), (1, [(60, "hello")])]).Nodup
      ∧ compile 60 [(0, [(60, "hello")]), (1, [(60, "hello")])]
          = [(60, "hello")]) :=
  ⟨by decide, C4_sorted_and_deduped 60 _ (by decide)⟩

/-- C5: reconciliation is idempotent.  Feeding the compiled transcript back
through the compile loop — each entry grouped under the window that owns
its start time — reproduces the transcript unchanged: every entry passes
its own window's ownership filter and no `(start, text)` key repeats. -/
theorem C5_reconcile_idempotent (lenSec : Nat) (hlen : 0 < lenSec)
    (pool : List (Nat × List (Nat × String))) :
    compile lenSec ((compile lenSec pool).map fun p => (p.1 / lenSec, [p]))
      = compile lenSec pool := by
  have hself : ∀ p : Nat × String, accepts lenSec (p.1 / lenSec) p.1 = true := by
    intro p
    rw [accepts_iff]
    exact ⟨Nat.div_mul_le_self _ _,
      (Nat.div_lt_iff_lt_mul hlen).1 (Nat.lt_succ_self _)⟩
  have h1 : ∀ c ∈ (compile lenSec pool).map fun p => (p.1 / lenSec, p),
      accepts lenSec c.1 c.2.1 = true := by
    intro c hc
    obtain ⟨p, _, rfl⟩ := List.mem_map.1 hc
    exact hself p
  have h2 : ∀ c ∈ (compile lenSec pool).map fun p => (p.1 / lenSec, p),
      c.2 ∉ ([] : List (Nat × String)) := by
    intro c _
    exact List.not_mem_nil _
  have h3 : (((compile lenSec pool).map fun p => (p.1 / lenSec, p)).map
      fun c => c.2).Nodup := by
    rw [List.map_map]
    have hid : ((fun (c : Nat × Nat × String) => c.2)
        ∘ fun (p : Nat × String) => (p.1 / lenSec, p)) = id := rfl
    rw [hid, List.map_id]
    exact compileLoop_nodup
  have key := compileLoop_all_accepted h1 h2 h3
  calc compile lenSec ((compile lenSec pool).map fun p => (p.1 / lenSec, [p]))
      = compileLoop lenSec
          ((compile lenSec pool).map fun p => (p.1 / lenSec, p)) [] := by
        rw [compile, candidates_singletons]
    _ = ((compile lenSec pool).map fun p => (p.1 / lenSec, p)).map
          (fun c => c.2) := key
    _ = compile lenSec pool := by
        rw [List.map_map]
        have hid : ((fun (c : Nat × Nat × String) => c.2)
            ∘ fun (p : Nat × String) => (p.1 / lenSec, p)) = id := rfl
        rw [hid, List.map_id]

/-- C5 witness: the theorem applied at a concrete pool (one window emitting
a duplicated segment). -/
theorem C5_reconcile_idempotent_witness :
    0 < 60
    ∧ compile 60 ((compile 60 [(0, [(10, "a"), (10, "a")])]).map
        fun p => (p.1 / 60, [p]))
      = compile 60 [(0, [(10, "a"), (10, "a")])] :=
  ⟨by decide, C5_reconcile_idempotent 60 (by decide) [(0, [(10, "a"), (10, "a")])]⟩

/-- C6: the stored global start is the window's read start plus the
model-local start, truncated (not rounded) to whole seconds — because the
read start in milliseconds is always a whole multiple of 1000, the source's
`int(segment["start"]) + start_ms // 1000` equals
`(start_ms + local_ms) / 1000`; and the stored text is the original text
stripped of leading/trailing whitespace. -/
theorem C6_timeline_mapping (lenSec ovSec idx localMs : Nat) :
    start_sec (chunk_start idx (idx * (lenSec * 1000)) (ovSec * 1000)) localMs
      = (chunk_start idx (idx * (lenSec * 1000)) (ovSec * 1000) + localMs) / 1000
    ∧ strip " hello " = "hello"
    ∧ start_sec 0 2999 = 2 := by
  refine ⟨?_, by decide, by decide⟩
  unfold chunk_start start_sec
  rcases Nat.eq_zero_or_pos idx with h0 | h0
  · subst h0
    simp
  · have hne : idx ≠ 0 := by omega
    rw [if_neg hne]
    have hk : idx * (lenSec * 1000) - ovSec * 1000
        = (idx * lenSec - ovSec) * 1000 := by
      rw [Nat.sub_mul, Nat.mul_assoc]
    rw [hk]
    omega

/-- C7 counterexample: window 0 emits `(30, "b")` then `(30, "a")`; the
claim (ties broken by emission order) predicts the compiled order
`[(30, "b"), (30, "a")]`, but `sorted(segments)` sorts the `(sec, text)`
tuples, so equal starts are ordered by text and the transcript is
`[(30, "a"), (30, "b")]`. -/
theorem C7_counterexample :
    compile 60 [(0, [(30, "b"), (30, "a")])] = [(30, "a"), (30, "b")]
    ∧ compile 60 [(0, [(30, "b"), (30, "a")])] ≠ [(30, "b"), (30, "a")] := by
  decide

/-- C7 amended: entries compiled from one window appear in Python's
`(sec, text)` tuple order — ties in start time are broken by lexicographic
text order (and the sort is applied per window), not by emission order. -/
theorem C7_tie_order_amended (lenSec idx : Nat) (segs : List (Nat × String)) :
    (compile lenSec [(idx, segs)]).Pairwise fun a b => pyLeB a b = true := by
  unfold compile
  apply compileLoop_pairwise
  have hc : candidates [(idx, segs)] = (sortSegments segs).map fun p => (idx, p) := by
    simp [candidates]
  rw [hc, List.pairwise_map]
  exact (sortSegments_pairwise segs).imp fun h _ _ => h

/-- C8: a chunk whose transcription failed (or produced nothing) leaves no
entry in `all_segments`, so the compiled transcript equals the one obtained
from the remaining chunks alone; concretely, with windows 0 and 2
succeeding and window 1 failing, the transcript still contains both
surviving segments. -/
theorem C8_window_failure_isolated (lenSec j : Nat)
    (pre post : List (Nat × Option (List (Nat × String)))) :
    compile lenSec (build_pool (pre ++ (j, none) :: post))
      = compile lenSec (build_pool (pre ++ post))
    ∧ compile 60 (build_pool
        [(0, some [(10, "a")]), (1, none), (2, some [(130, "c")])])
      = [(10, "a"), (130, "c")] := by
  constructor
  · have h1 : build_pool (pre ++ (j, none) :: post)
        = build_pool pre ++ build_pool post := by
      simp [build_pool, List.filterMap_append]
    have h2 : build_pool (pre ++ post) = build_pool pre ++ build_pool post := by
      simp [build_pool, List.filterMap_append]
    rw [h1, h2]
  · decide

/-- C9 (code bug): `AudioSegment.from_file` (source line 60) is outside any
`try`, so a decode failure on the first file aborts the whole batch — the
code produces no transcript for the decodable second file, while the spec's
`DecodeError` policy (skip the file, continue the batch) would produce its
transcript. -/
theorem C9_decode_failure_aborts_batch :
    run_batch 60 [Except.error "decode failure", Except.ok [(0, [(5, "ok")])]]
      = ([], some "decode failure")
    ∧ claim_run_batch 60 [Except.error "decode failure", Except.ok [(0, [(5, "ok")])]]
      = [[(5, "ok")]] := by
  exact ⟨rfl, rfl⟩

/-- C10: candidates accepted by the ownership filter from two distinct
windows always differ in (truncated) start time — the ownership ranges
`[idx*len, (idx+1)*len)` are pairwise disjoint, so an accepted start
determines its window and the `(start, text)` dedup can only ever drop a
duplicate whose accepted twin came from the same window. -/
theorem C10_cross_window_starts_distinct (lenSec i j s1 s2 : Nat)
    (h1 : accepts lenSec i s1 = true) (h2 : accepts lenSec j s2 = true) :
    (i ≠ j → s1 ≠ s2) ∧ (s1 = s2 → i = j) := by
  rw [accepts_iff] at h1 h2
  have key : ∀ a t : Nat, a * lenSec ≤ t → t < (a + 1) * lenSec →
      t / lenSec = a := fun a t hlo hhi => Nat.div_eq_of_lt_le hlo hhi
  constructor
  · intro hij heq
    exact hij (by rw [← key i s1 h1.1 h1.2, ← key j s2 h2.1 h2.2, heq])
  · intro heq
    rw [← key i s1 h1.1 h1.2, ← key j s2 h2.1 h2.2, heq]

/-- C10 witness: the theorem applied at accepted starts 10 (window 0) and
70 (window 1) with 60-second windows. -/
theorem C10_cross_window_starts_distinct_witness :
    (accepts 60 0 10 = true ∧ accepts 60 1 70 = true)
    ∧ ((0 ≠ 1 → 10 ≠ 70) ∧ (10 = 70 → 0 = 1)) :=
  ⟨by decide, C10_cross_window_starts_distinct 60 0 1 10 70 (by decide) (by decide)⟩

end WhisperTranscriber
